import Mathlib

/-!
Shallow embedding of `src/commands/mod.rs` of the `forty_situps` repository:
the command-definition data model (`Opt`, `Argument`, `HelpText`,
`CommandDefinition`, the `Command` capability) and its lookup and dispatch
operations, together with theorems settling the specification claims.

Modelling conventions:
* Rust static string references become `String`; `Vec<T>` becomes `List T`;
  `Result<(), String>` becomes `Except String Unit`.
* Rust `str::len()` is the UTF-8 byte length, modelled by
  `String.utf8ByteSize`.
* Rust `Vec::sort_by` is a stable sort; it is modelled by the Mathlib
  `List.insertionSort`, which inserts each element before the first element
  it compares `≤` to and is therefore stable for the same comparison (a
  stable sort is determined extensionally by the comparison, so any stable
  sort model is extensionally the Rust one).
* A Rust panic (out-of-bounds indexing) is modelled by returning `none`.
* `HashMap` collected from an iterator of key-value pairs is modelled as an
  association list built by repeated insert-with-replace (`mapInsert`,
  later pairs overwrite the binding of an equal key), with `get` the first
  matching binding (`mapGet`).
-/

namespace FortySitups

/-- Rust `str::len()`: the UTF-8 byte length of the string. -/
def strLen (s : String) : Nat := s.utf8ByteSize

/-- The comparison used by `Opt::new`:
`names.sort_by(|a, b| a.len().cmp(&b.len()))` orders by byte length. -/
def lenLE (a b : String) : Prop := strLen a ≤ strLen b

instance : DecidableRel lenLE := fun a b => inferInstanceAs (Decidable (strLen a ≤ strLen b))

instance : IsTotal String lenLE := ⟨fun a b => Nat.le_total (strLen a) (strLen b)⟩

instance : IsTrans String lenLE := ⟨fun _ _ _ h h2 => Nat.le_trans h h2⟩

/-- `names.sort_by(|a, b| a.len().cmp(&b.len()))`: stable sort ascending by
length, modelled by insertion sort (stable for this insertion rule). -/
def sortByLen (names : List String) : List String := names.insertionSort lenLE

/-- `enum OptType { Bool, String, Int }` -/
inductive OptType where
  | bool
  | string
  | int
deriving DecidableEq

/-- `struct Opt` of `src/commands/mod.rs`: `name` is the canonical name for
the option, `names` the accepted aliases. The accessor `Opt::name()` returns
the `name` field, which is the Lean field accessor `Opt.name`. -/
structure Opt where
  name : String
  names : List String
  opt_type : OptType
  description : String
deriving DecidableEq

/-- `Opt::new`: `let canonical = names[0];` then
`names.sort_by(|a, b| a.len().cmp(&b.len()))`. Indexing `names[0]` panics
when `names` is empty; the panic is modelled as `none`. -/
def Opt.new (names : List String) (opt_type : OptType) (desc : String) : Option Opt :=
  match names with
  | [] => none
  | canonical :: _ =>
    some ⟨canonical, sortByLen names, opt_type, desc⟩

/-- `Opt::new_bool`. -/
def Opt.new_bool (names : List String) (desc : String) : Option Opt :=
  Opt.new names OptType.bool desc

/-- `struct HelpText`. -/
structure HelpText where
  tagline : String
  short_desc : String
  synopsis : String
deriving DecidableEq

/-- Modelled from the spec: the external `request::Request` invocation
context (`src/commands/request.rs` is not part of the shown source) — the
resolved option values, argument values and environment. This module never
inspects it, only passes it to the execution callback. -/
structure Request where
  optionValues : List (String × String)
  argumentValues : List String
  environment : List (String × String)

/-- `type RunFn = fn(&request::Request) -> Result<(), String>`. -/
abbrev RunFn := Request → Except String Unit

/-- `enum ArgumentType { String, File }` -/
inductive ArgumentType where
  | string
  | file
deriving DecidableEq

/-- `struct Argument`. -/
structure Argument where
  name : String
  ty : ArgumentType
  required : Bool
  variadic : Bool
  description : String
deriving DecidableEq

/-- `Argument::new`: plain value construction, no validation. -/
def Argument.new (name : String) (ty : ArgumentType) (required : Bool)
    (variadic : Bool) (desc : String) : Argument :=
  ⟨name, ty, required, variadic, desc⟩

/-- `Argument::new_file`. -/
def Argument.new_file (name : String) (required : Bool) (variadic : Bool)
    (desc : String) : Argument :=
  Argument.new name ArgumentType.file required variadic desc

/-- `Argument::new_string`. -/
def Argument.new_string (name : String) (required : Bool) (variadic : Bool)
    (desc : String) : Argument :=
  Argument.new name ArgumentType.string required variadic desc

/-- `Argument::is_variadic()`. -/
def Argument.is_variadic (a : Argument) : Bool := a.variadic

/-- `Argument::arg_type()`. -/
def Argument.arg_type (a : Argument) : ArgumentType := a.ty

mutual

/-- `struct CommandDefinition`. The source declares the `options` field
as `HashMap<OptName, Opt>`, but `CommandDefinition::new` stores the supplied
`Vec<Opt>` in it directly and both `options()` and `get_option` iterate it
as a collection of `Opt` values, so it is embedded as `List Opt` (the set of
owned `Opt` values in supply order). `subcommands` is the hash map from
subcommand name to boxed `Command`, modelled as an association list built by
insert-with-replace. `CommandDefinition::run` reads an execution callback
field `self.run`; the struct declaration omits that field (the source does
not compile as written), so the field the method requires is included here
as `runFn`. -/
inductive CommandDefinition : Type where
  | mk
    (name : String)
    (options : List Opt)
    (arguments : List Argument)
    (help_text : HelpText)
    (subcommands : List (String × Command))
    (runFn : RunFn)

/-- `trait Command`: anything exposing `run` and `get_def`. A boxed trait
object is modelled as its two capabilities: the `CommandDefinition` it
exposes and its `run` implementation. -/
inductive Command : Type where
  | mk (def_ : CommandDefinition) (runImpl : RunFn)

end

/-- `Command::get_def`. -/
def Command.get_def : Command → CommandDefinition
  | Command.mk d _ => d

/-- The `run` of the `Command` trait. -/
def Command.runImpl : Command → RunFn
  | Command.mk _ r => r

/-- Field accessor for `CommandDefinition.name`. -/
def CommandDefinition.nameField : CommandDefinition → String
  | CommandDefinition.mk n _ _ _ _ _ => n

/-- Field accessor for `CommandDefinition.options` (the stored `Opt`s). -/
def CommandDefinition.optionsField : CommandDefinition → List Opt
  | CommandDefinition.mk _ o _ _ _ _ => o

/-- Field accessor for `CommandDefinition.arguments`. -/
def CommandDefinition.argumentsField : CommandDefinition → List Argument
  | CommandDefinition.mk _ _ a _ _ _ => a

/-- Field accessor for `CommandDefinition.help_text`. -/
def CommandDefinition.helpTextField : CommandDefinition → HelpText
  | CommandDefinition.mk _ _ _ h _ _ => h

/-- Field accessor for `CommandDefinition.subcommands` (the hash map model). -/
def CommandDefinition.subcommandsField : CommandDefinition → List (String × Command)
  | CommandDefinition.mk _ _ _ _ s _ => s

/-- Field accessor for the stored execution callback `self.run`. -/
def CommandDefinition.runFn : CommandDefinition → RunFn
  | CommandDefinition.mk _ _ _ _ _ r => r

/-- `CommandDefinition::new` keys each supplied command by
`cmd.name()`; the `Command` trait exposes no `name` method, so this is the
declared name of the embedded definition of the command. -/
def Command.cmdName (c : Command) : String := c.get_def.nameField

/-- `HashMap::insert` model on an association list: replaces the binding of
an equal key in place, otherwise appends the new binding. -/
def mapInsert (k : String) (v : Command) : List (String × Command) → List (String × Command)
  | [] => [(k, v)]
  | (k2, v2) :: rest =>
    if k2 = k then (k, v) :: rest else (k2, v2) :: mapInsert k v rest

/-- `HashMap::get` model: the binding of the key, if any. -/
def mapGet (k : String) : List (String × Command) → Option Command
  | [] => none
  | (k2, v2) :: rest => if k2 = k then some v2 else mapGet k rest

/-- `collect::<HashMap<_, _>>()` model: insert every pair in order, later
pairs silently replacing earlier ones with an equal key. -/
def collectMap (ps : List (String × Command)) : List (String × Command) :=
  ps.foldl (fun m p => mapInsert p.1 p.2 m) []

/-- `CommandDefinition::new`: stores `options` and `arguments` unchanged and
collects `subcommands` into the name-keyed map. The source signature has no
callback parameter although the struct needs the `run` field (see
`CommandDefinition`); the model threads the callback through explicitly. -/
def CommandDefinition.new (name : String) (options : List Opt)
    (arguments : List Argument) (help_text : HelpText)
    (subcommands : List Command) (runFn : RunFn) : CommandDefinition :=
  CommandDefinition.mk name options arguments help_text
    (collectMap (subcommands.map fun cmd => (cmd.cmdName, cmd))) runFn

/-- `CommandDefinition::name()`. -/
def CommandDefinition.getName (d : CommandDefinition) : String := d.nameField

/-- The nested loop of `CommandDefinition::options()`: for each `opt`, for
each `name` in `opt.names`, push `(name, opt)`. -/
def optPairs : List Opt → List (String × Opt)
  | [] => []
  | opt :: rest => (opt.names.map fun n => (n, opt)) ++ optPairs rest

/-- `CommandDefinition::options()` (named `optionsList` here because the
backing field already carries the name `options`). -/
def CommandDefinition.optionsList (d : CommandDefinition) : List (String × Opt) :=
  optPairs d.optionsField

/-- The loop of `CommandDefinition::get_option`: return the first stored
`Opt` one of whose names equals `name`; `none` when the scan finds no
match. -/
def findOpt (name : String) : List Opt → Option Opt
  | [] => none
  | opt :: rest => if opt.names.contains name then some opt else findOpt name rest

/-- `CommandDefinition::get_option`. -/
def CommandDefinition.get_option (d : CommandDefinition) (name : String) : Option Opt :=
  findOpt name d.optionsField

/-- `CommandDefinition::subcommand`: `self.subcommands.get(subcmd)`. -/
def CommandDefinition.subcommand (d : CommandDefinition) (subcmd : String) : Option Command :=
  mapGet subcmd d.subcommandsField

/-- `CommandDefinition::arguments()`. -/
def CommandDefinition.getArguments (d : CommandDefinition) : List Argument :=
  d.argumentsField

/-- `CommandDefinition::run`: `(self.run)(req)`. -/
def CommandDefinition.run (d : CommandDefinition) (req : Request) : Except String Unit :=
  d.runFn req

/-- Looking an alias up in the flattened alias-to-Opt projection produced by
`CommandDefinition::options()`: the first pair carrying that alias. -/
def CommandDefinition.projectionLookup (d : CommandDefinition) (a : String) : Option Opt :=
  (d.optionsList.find? fun p => p.1 == a).map Prod.snd

/-- The binding a key ends up with after all insert-with-replace steps of
`collectMap`: the value of the last pair of the list carrying the key. -/
def lastBinding (k : String) : List (String × Command) → Option Command
  | [] => none
  | p :: rest =>
    match lastBinding k rest with
    | some v => some v
    | none => if p.1 = k then some p.2 else none

/-! Concrete fixtures used by the witness theorems. -/

/-- Fixture: the Opt obtained from aliases `["h", "help"]`. -/
def optHelp : Opt := ⟨"h", ["h", "help"], OptType.bool, "show help"⟩

/-- Fixture: the Opt obtained from aliases `["q", "quiet"]`. -/
def optQuiet : Opt := ⟨"q", ["q", "quiet"], OptType.bool, "be quiet"⟩

/-- Fixture: a help text. -/
def htEx : HelpText := ⟨"tag", "short", "syn"⟩

/-- Fixture: a request. -/
def reqEx : Request := ⟨[], [], []⟩

/-- Fixture: a callback that always succeeds. -/
def runOk : RunFn := fun _ => Except.ok ()

/-- Fixture: a callback that always fails with the exact string
`"disk full"`. -/
def runDiskFull : RunFn := fun _ => Except.error "disk full"

/-- Fixture: a first subcommand named `add`. -/
def cmdAdd1 : Command :=
  Command.mk (CommandDefinition.new "add" [] [] htEx [] runOk) runOk

/-- Fixture: a second, distinct subcommand also named `add`. -/
def cmdAdd2 : Command :=
  Command.mk (CommandDefinition.new "add" [] []
    (⟨"other tag", "other short", "other syn"⟩ : HelpText) [] runOk) runOk

/-- Fixture: a subcommand named `list`. -/
def cmdList : Command :=
  Command.mk (CommandDefinition.new "list" [] [] htEx [] runOk) runOk

/-- Fixture: a definition with the two Opts of the spec scenario. -/
def defOpts : CommandDefinition :=
  CommandDefinition.new "cmd" [optHelp, optQuiet] [] htEx [] runOk

/-- Fixture: a definition whose callback fails with `"disk full"`. -/
def defDisk : CommandDefinition :=
  CommandDefinition.new "cmd" [] [] htEx [] runDiskFull

/-! Lemmas about the stable length sort. -/

/-- The sort of `Opt::new` permutes its input. -/
theorem sortByLen_perm (l : List String) : List.Perm (sortByLen l) l :=
  List.perm_insertionSort lenLE l

/-- The sort of `Opt::new` sorts ascending by byte length. -/
theorem sortByLen_sorted (l : List String) : List.Pairwise lenLE (sortByLen l) :=
  List.sorted_insertionSort lenLE l

/-- Inserting an element commutes with filtering on one length value: the
inserted element lands in front of the equal-length elements already
present, exactly as a stable sort demands. -/
theorem orderedInsert_filter_len (x : String) (k : Nat) (l : List String) :
    (List.orderedInsert lenLE x l).filter (fun s => strLen s == k)
      = if strLen x = k then x :: l.filter (fun s => strLen s == k)
        else l.filter (fun s => strLen s == k) := by
  induction l with
  | nil =>
    by_cases hx : strLen x = k <;> simp [List.orderedInsert, List.filter_cons, hx]
  | cons b l ih =>
    by_cases hxb : lenLE x b
    · simp only [List.orderedInsert, if_pos hxb]
      by_cases hx : strLen x = k <;> simp [List.filter_cons, hx]
    · have hbx : strLen b < strLen x := Nat.not_le.mp hxb
      simp only [List.orderedInsert, if_neg hxb]
      by_cases hx : strLen x = k
      · have hb : ¬ strLen b = k := by omega
        simp [List.filter_cons, hb, ih, hx]
      · simp [List.filter_cons, ih, hx]

/-- Stability of the sort of `Opt::new`, phrased through filters: the
elements of any one length appear in the sorted list exactly in their
input order. -/
theorem sortByLen_filter (k : Nat) (l : List String) :
    (sortByLen l).filter (fun s => strLen s == k) = l.filter (fun s => strLen s == k) := by
  induction l with
  | nil => rfl
  | cons x l ih =>
    show (List.orderedInsert lenLE x (sortByLen l)).filter _ = _
    rw [orderedInsert_filter_len]
    by_cases hx : strLen x = k <;> simp [List.filter_cons, hx, ih]

/-- The sorted alias list of a nonempty input is nonempty. -/
theorem sortByLen_ne_nil (c : String) (rest : List String) : sortByLen (c :: rest) ≠ [] := by
  intro hnil
  have hperm := sortByLen_perm (c :: rest)
  rw [hnil] at hperm
  exact List.cons_ne_nil c rest hperm.symm.eq_nil

/-- C1: for every Opt constructed from a non-empty alias list, the `name()`
accessor (the canonical name) returns the first-supplied alias, regardless
of how the later length-sort reorders `names`. -/
theorem claim_C1 (c : String) (rest : List String) (ty : OptType) (desc : String)
    (o : Opt) (h : Opt.new (c :: rest) ty desc = some o) : o.name = c := by
  cases Option.some.inj h
  rfl

/-- Witness for C1 at an input whose sort moves the first alias away from
the front: the canonical name is still the first-supplied alias. -/
theorem claim_C1_witness :
    Opt.new ["bb", "a"] OptType.bool "" = some ⟨"bb", ["a", "bb"], OptType.bool, ""⟩ ∧
      (⟨"bb", ["a", "bb"], OptType.bool, ""⟩ : Opt).name = "bb" :=
  ⟨by decide, claim_C1 "bb" ["a"] OptType.bool "" ⟨"bb", ["a", "bb"], OptType.bool, ""⟩ (by decide)⟩

/-- C3: after construction the alias list is sorted non-decreasing by
string length, and the aliases of any one length keep the relative order
they had in the supplied list (the sort is stable). -/
theorem claim_C3 (names : List String) (ty : OptType) (desc : String) (o : Opt)
    (h : Opt.new names ty desc = some o) :
    List.Pairwise (fun a b => strLen a ≤ strLen b) o.names ∧
      ∀ k : Nat, o.names.filter (fun s => strLen s == k)
        = names.filter (fun s => strLen s == k) := by
  cases names with
  | nil => simp [Opt.new] at h
  | cons c rest =>
    cases Option.some.inj h
    exact ⟨sortByLen_sorted (c :: rest), fun k => sortByLen_filter k (c :: rest)⟩

/-- Witness for C3: aliases `["bb", "a", "cc"]` sort to `["a", "bb", "cc"]`,
non-decreasing in length, with the equal-length `"bb"` and `"cc"` kept in
input order. -/
theorem claim_C3_witness :
    Opt.new ["bb", "a", "cc"] OptType.bool ""
        = some ⟨"bb", ["a", "bb", "cc"], OptType.bool, ""⟩ ∧
      List.Pairwise (fun a b => strLen a ≤ strLen b)
        (⟨"bb", ["a", "bb", "cc"], OptType.bool, ""⟩ : Opt).names ∧
      (⟨"bb", ["a", "bb", "cc"], OptType.bool, ""⟩ : Opt).names.filter
          (fun s => strLen s == 2)
        = (["bb", "a", "cc"] : List String).filter (fun s => strLen s == 2) :=
  ⟨by decide,
    (claim_C3 ["bb", "a", "cc"] OptType.bool ""
      ⟨"bb", ["a", "bb", "cc"], OptType.bool, ""⟩ (by decide)).1,
    (claim_C3 ["bb", "a", "cc"] OptType.bool ""
      ⟨"bb", ["a", "bb", "cc"], OptType.bool, ""⟩ (by decide)).2 2⟩

/-- C8: constructing an Opt from an empty alias list fails (the model of
the out-of-bounds panic on `names[0]`), and any Opt that construction does
produce has a nonempty alias list. -/
theorem claim_C8 (names : List String) (ty : OptType) (desc : String) (o : Opt) :
    Opt.new [] ty desc = none ∧ (Opt.new names ty desc = some o → o.names ≠ []) := by
  refine ⟨rfl, fun h => ?_⟩
  cases names with
  | nil => simp [Opt.new] at h
  | cons c rest =>
    cases Option.some.inj h
    exact sortByLen_ne_nil c rest

/-- Witness for C8: construction from `["a"]` succeeds and the produced
alias list is nonempty (and construction from `[]` fails, first conjunct of
the claim theorem). -/
theorem claim_C8_witness :
    Opt.new ["a"] OptType.bool "" = some ⟨"a", ["a"], OptType.bool, ""⟩ ∧
      (⟨"a", ["a"], OptType.bool, ""⟩ : Opt).names ≠ [] :=
  ⟨by decide, (claim_C8 ["a"] OptType.bool "" ⟨"a", ["a"], OptType.bool, ""⟩).2 (by decide)⟩

/-- C10: the alias list produced by construction is a permutation of the
supplied list (nothing dropped, nothing added, duplicates retained), so it
is nonempty and contains the canonical name. -/
theorem claim_C10 (names : List String) (ty : OptType) (desc : String) (o : Opt)
    (h : Opt.new names ty desc = some o) :
    List.Perm o.names names ∧ o.names ≠ [] ∧ o.name ∈ o.names := by
  cases names with
  | nil => simp [Opt.new] at h
  | cons c rest =>
    cases Option.some.inj h
    exact ⟨sortByLen_perm (c :: rest), sortByLen_ne_nil c rest,
      (sortByLen_perm (c :: rest)).mem_iff.mpr (List.mem_cons_self c rest)⟩

/-- Witness for C10 at an input with a duplicate alias: both occurrences
are retained, and the canonical name is a member. -/
theorem claim_C10_witness :
    Opt.new ["a", "a", "bb"] OptType.bool ""
        = some ⟨"a", ["a", "a", "bb"], OptType.bool, ""⟩ ∧
      (List.Perm (⟨"a", ["a", "a", "bb"], OptType.bool, ""⟩ : Opt).names ["a", "a", "bb"] ∧
        (⟨"a", ["a", "a", "bb"], OptType.bool, ""⟩ : Opt).names ≠ [] ∧
        (⟨"a", ["a", "a", "bb"], OptType.bool, ""⟩ : Opt).name
          ∈ (⟨"a", ["a", "a", "bb"], OptType.bool, ""⟩ : Opt).names) :=
  ⟨by decide,
    claim_C10 ["a", "a", "bb"] OptType.bool ""
      ⟨"a", ["a", "a", "bb"], OptType.bool, ""⟩ (by decide)⟩

/-! Lemmas about the hash-map model used for the subcommand table. -/

/-- `get` after one insert-with-replace: the inserted binding wins for its
own key, every other key is unchanged. -/
theorem mapGet_mapInsert (k k2 : String) (v : Command) (m : List (String × Command)) :
    mapGet k (mapInsert k2 v m) = if k2 = k then some v else mapGet k m := by
  induction m with
  | nil => simp [mapInsert, mapGet]
  | cons p m ih =>
    obtain ⟨a, b⟩ := p
    by_cases hak2 : a = k2
    · by_cases hk2k : k2 = k <;>
        simp [mapInsert, mapGet, hak2, hk2k, ih]
    · by_cases hak : a = k
      · have hk2k : ¬ k2 = k := fun h => hak2 (hak.trans h.symm)
        have hkk2 : ¬ k = k2 := fun h => hak2 (hak.trans h)
        simp [mapInsert, mapGet, hak2, hak, hk2k, hkk2]
      · simp [mapInsert, mapGet, hak2, hak, ih]

/-- `get` after collecting a pair list into the map: the last binding of
the key in the list. -/
theorem mapGet_foldl (k : String) (ps : List (String × Command)) :
    ∀ m : List (String × Command),
      mapGet k (ps.foldl (fun m p => mapInsert p.1 p.2 m) m)
        = match lastBinding k ps with
          | some v => some v
          | none => mapGet k m := by
  induction ps with
  | nil => intro m; rfl
  | cons p ps ih =>
    intro m
    rw [List.foldl_cons, ih (mapInsert p.1 p.2 m), mapGet_mapInsert]
    cases h : lastBinding k ps with
    | some v => simp [lastBinding, h]
    | none =>
      by_cases hk : p.1 = k <;> simp [lastBinding, h, hk]

/-- `collect::<HashMap>` followed by `get` returns the binding of the last
pair of the input carrying the key. -/
theorem mapGet_collectMap (k : String) (ps : List (String × Command)) :
    mapGet k (collectMap ps) = lastBinding k ps := by
  rw [collectMap, mapGet_foldl]
  cases h : lastBinding k ps <;> simp [mapGet]

/-- The last binding of a concatenation: bindings of the second part win. -/
theorem lastBinding_append (k : String) (xs ys : List (String × Command)) :
    lastBinding k (xs ++ ys)
      = match lastBinding k ys with
        | some v => some v
        | none => lastBinding k xs := by
  induction xs with
  | nil => cases h : lastBinding k ys <;> simp [lastBinding, h]
  | cons p xs ih =>
    show lastBinding k (p :: (xs ++ ys)) = _
    rw [lastBinding, ih]
    cases h : lastBinding k ys <;> cases h2 : lastBinding k xs <;>
      simp [lastBinding, h, h2]

/-- No binding exists exactly when no pair of the list carries the key. -/
theorem lastBinding_eq_none_iff (k : String) (ps : List (String × Command)) :
    lastBinding k ps = none ↔ ∀ p ∈ ps, p.1 ≠ k := by
  induction ps with
  | nil => simp [lastBinding]
  | cons p ps ih =>
    constructor
    · intro h q hq
      have hps : lastBinding k ps = none := by
        cases h2 : lastBinding k ps with
        | some v => simp only [lastBinding, h2] at h; exact h
        | none => rfl
      have hp : p.1 ≠ k := by
        simp only [lastBinding, hps] at h
        intro hpk
        rw [if_pos hpk] at h
        exact absurd h (by simp)
      rcases List.mem_cons.mp hq with rfl | hq2
      · exact hp
      · exact (ih.mp hps) q hq2
    · intro hall
      have hps : lastBinding k ps = none :=
        ih.mpr fun q hq => hall q (List.mem_cons_of_mem p hq)
      simp only [lastBinding, hps]
      rw [if_neg (hall p (List.mem_cons_self p ps))]

/-- A found binding comes from a pair of the list carrying the key. -/
theorem lastBinding_eq_some_mem (k : String) (ps : List (String × Command)) (v : Command)
    (h : lastBinding k ps = some v) : (k, v) ∈ ps := by
  induction ps with
  | nil => simp [lastBinding] at h
  | cons p ps ih =>
    cases h2 : lastBinding k ps with
    | some w =>
      simp only [lastBinding, h2] at h
      cases Option.some.inj h
      exact List.mem_cons_of_mem p (ih h2)
    | none =>
      simp only [lastBinding, h2] at h
      by_cases hpk : p.1 = k
      · rw [if_pos hpk] at h
        have hv : p.2 = v := Option.some.inj h
        have hp : (k, v) = p := by
          obtain ⟨p1, p2⟩ := p
          simp_all
        rw [hp]
        exact List.mem_cons_self p ps
      · rw [if_neg hpk] at h
        exact absurd h (by simp)

/-- `subcommand` on a constructed definition looks up the last supplied
command with the given declared name. -/
theorem subcommand_new (nm : String) (opts : List Opt) (args : List Argument)
    (ht : HelpText) (cs : List Command) (rf : RunFn) (n : String) :
    (CommandDefinition.new nm opts args ht cs rf).subcommand n
      = lastBinding n (cs.map fun c => (c.cmdName, c)) := by
  simp only [CommandDefinition.new, CommandDefinition.subcommand,
    CommandDefinition.subcommandsField]
  exact mapGet_collectMap n (cs.map fun c => (c.cmdName, c))

/-- C4: when two supplied subcommands share a declared name, `subcommand`
reaches exactly the later one in the input sequence; the earlier one is
silently discarded. Stated for any decomposition of the input whose last
command with the contested name is the later duplicate. -/
theorem claim_C4 (nm : String) (opts : List Opt) (args : List Argument) (ht : HelpText)
    (rf : RunFn) (l1 l2 l3 : List Command) (c1 c2 : Command) (n : String)
    (h1 : c1.cmdName = n) (h2 : c2.cmdName = n) (h3 : ∀ c ∈ l3, c.cmdName ≠ n) :
    (CommandDefinition.new nm opts args ht (l1 ++ c1 :: (l2 ++ c2 :: l3)) rf).subcommand n
      = some c2 := by
  rw [subcommand_new]
  have hC : lastBinding n (l3.map fun c => (c.cmdName, c)) = none := by
    rw [lastBinding_eq_none_iff]
    intro p hp
    rcases List.mem_map.mp hp with ⟨c, hc, rfl⟩
    exact h3 c hc
  have hc2 : lastBinding n ((c2.cmdName, c2) :: l3.map fun c => (c.cmdName, c))
      = some c2 := by
    simp only [lastBinding, hC]
    rw [if_pos h2]
  have hys : lastBinding n ((l2.map fun c => (c.cmdName, c))
      ++ ((c2.cmdName, c2) :: l3.map fun c => (c.cmdName, c))) = some c2 := by
    rw [lastBinding_append, hc2]
  have hcons : lastBinding n ((c1.cmdName, c1) :: ((l2.map fun c => (c.cmdName, c))
      ++ ((c2.cmdName, c2) :: l3.map fun c => (c.cmdName, c)))) = some c2 := by
    simp only [lastBinding, hys]
  rw [List.map_append, List.map_cons, List.map_append, List.map_cons]
  rw [lastBinding_append, hcons]

/-- Witness for C4: two subcommands both named `add`, with a `list` command
between them; lookup of `add` returns the later duplicate. -/
theorem claim_C4_witness :
    cmdAdd1.cmdName = "add" ∧ cmdAdd2.cmdName = "add" ∧
      (CommandDefinition.new "cmd" [] [] htEx
          ([] ++ cmdAdd1 :: ([cmdList] ++ cmdAdd2 :: [])) runOk).subcommand "add"
        = some cmdAdd2 :=
  ⟨rfl, rfl,
    claim_C4 "cmd" [] [] htEx runOk [] [cmdList] [] cmdAdd1 cmdAdd2 "add" rfl rfl
      (by simp)⟩

/-- C6: `subcommand` is exact-string lookup only: it returns none precisely
when no supplied subcommand declared exactly the queried name (no prefix or
fuzzy matching, no case folding), and anything it returns is a supplied
subcommand whose declared name equals the query exactly. -/
theorem claim_C6 (nm : String) (opts : List Opt) (args : List Argument) (ht : HelpText)
    (rf : RunFn) (cs : List Command) (n : String) :
    ((CommandDefinition.new nm opts args ht cs rf).subcommand n = none
        ↔ ∀ c ∈ cs, c.cmdName ≠ n) ∧
      ∀ c, (CommandDefinition.new nm opts args ht cs rf).subcommand n = some c
        → c ∈ cs ∧ c.cmdName = n := by
  constructor
  · rw [subcommand_new, lastBinding_eq_none_iff]
    constructor
    · intro h c hc
      exact h (c.cmdName, c) (List.mem_map.mpr ⟨c, hc, rfl⟩)
    · intro h p hp
      rcases List.mem_map.mp hp with ⟨c, hc, rfl⟩
      exact h c hc
  · intro c hc
    rw [subcommand_new] at hc
    have hmem := lastBinding_eq_some_mem n (cs.map fun c => (c.cmdName, c)) c hc
    rcases List.mem_map.mp hmem with ⟨c2, hc2, heq⟩
    have he1 : c2 = c := congrArg Prod.snd heq
    have he2 : c2.cmdName = n := congrArg Prod.fst heq
    subst he1
    exact ⟨hc2, he2⟩

/-- Witness for C6: looking up `list` among subcommands `[cmdAdd1]` (named
`add`) returns none. -/
theorem claim_C6_witness :
    (CommandDefinition.new "cmd" [] [] htEx [cmdAdd1] runOk).subcommand "list" = none :=
  (claim_C6 "cmd" [] [] htEx runOk [cmdAdd1] "list").1.mpr (by
    intro c hc
    rcases List.mem_cons.mp hc with rfl | h
    · decide
    · cases h)

/-! Lemmas about the option lookup paths. -/

/-- No stored Opt matches exactly when the name is no alias of any of
them. -/
theorem findOpt_eq_none_iff (a : String) (opts : List Opt) :
    findOpt a opts = none ↔ ∀ o ∈ opts, a ∉ o.names := by
  induction opts with
  | nil => simp [findOpt]
  | cons o opts ih =>
    by_cases h : o.names.contains a
    · have ha : a ∈ o.names := List.elem_iff.mp h
      simp only [findOpt, if_pos h]
      constructor
      · intro hh
        exact absurd hh (by simp)
      · intro hall
        exact absurd ha (hall o (List.mem_cons_self o opts))
    · have ha : a ∉ o.names := fun hm => h (List.elem_iff.mpr hm)
      simp only [findOpt, if_neg h]
      rw [ih]
      constructor
      · intro hall o2 ho2
        rcases List.mem_cons.mp ho2 with rfl | ho3
        · exact ha
        · exact hall o2 ho3
      · intro hall o2 ho2
        exact hall o2 (List.mem_cons_of_mem o ho2)

/-- The scan returns the Opt at the first position whose alias set holds
the name. -/
theorem findOpt_first (a : String) (l1 l2 : List Opt) (o : Opt)
    (ho : a ∈ o.names) (hl1 : ∀ o2 ∈ l1, a ∉ o2.names) :
    findOpt a (l1 ++ o :: l2) = some o := by
  induction l1 with
  | nil =>
    show findOpt a (o :: l2) = some o
    simp only [findOpt]
    rw [if_pos (List.elem_iff.mpr ho)]
  | cons o2 l1 ih =>
    have h2 : ¬ o2.names.contains a :=
      fun hc => hl1 o2 (List.mem_cons_self o2 l1) (List.elem_iff.mp hc)
    show findOpt a (o2 :: (l1 ++ o :: l2)) = some o
    simp only [findOpt]
    rw [if_neg h2]
    exact ih fun o3 h3 => hl1 o3 (List.mem_cons_of_mem o2 h3)

/-- Searching the alias pairs of a single Opt: found exactly when the alias
list holds the name, and the found pair is the queried alias with that
Opt. -/
theorem find_namePairs (o : Opt) (a : String) (names : List String) :
    (names.map fun n => (n, o)).find? (fun p => p.1 == a)
      = if names.contains a then some (a, o) else none := by
  induction names with
  | nil => simp
  | cons n names ih =>
    by_cases h : n = a
    · subst h
      simp [List.find?_cons]
    · simp only [List.map_cons, List.find?_cons]
      have hb : ((n, o).1 == a) = false := by simp [h]
      rw [hb]
      rw [ih]
      have hc : (n :: names).contains a = names.contains a := by
        have hab : (a == n) = false := beq_eq_false_iff_ne.mpr fun hh => h hh.symm
        simp [List.contains_cons, hab]
        intro hh
        exact absurd hh.symm h
      rw [hc]

/-- The alias-to-Opt projection, searched for an alias, agrees with the
linear scan of `get_option`. -/
theorem optPairs_find (a : String) (opts : List Opt) :
    ((optPairs opts).find? fun p => p.1 == a).map Prod.snd = findOpt a opts := by
  induction opts with
  | nil => rfl
  | cons o opts ih =>
    show ((((o.names.map fun n => (n, o)) ++ optPairs opts).find?
      fun p => p.1 == a).map Prod.snd) = _
    rw [List.find?_append, find_namePairs]
    by_cases h : o.names.contains a
    · simp only [findOpt, if_pos h]
      simp
    · simp only [findOpt, if_neg h]
      simpa using ih

/-- The projection has one pair per alias: its length is the sum of the
alias-list lengths. -/
theorem optPairs_length (opts : List Opt) :
    (optPairs opts).length = (opts.map fun o => o.names.length).sum := by
  induction opts with
  | nil => rfl
  | cons o opts ih => simp [optPairs, ih]

/-- Every alias of every stored Opt contributes its pair to the
projection. -/
theorem mem_optPairs_of (opts : List Opt) (o : Opt) (ho : o ∈ opts) (n : String)
    (hn : n ∈ o.names) : (n, o) ∈ optPairs opts := by
  induction opts with
  | nil => cases ho
  | cons o2 opts ih =>
    rcases List.mem_cons.mp ho with rfl | ho2
    · exact List.mem_append_left _ (List.mem_map.mpr ⟨n, hn, rfl⟩)
    · exact List.mem_append_right _ (ih ho2)

/-- Every pair of the projection comes from a stored Opt and one of its
aliases. -/
theorem of_mem_optPairs (opts : List Opt) (p : String × Opt) (hp : p ∈ optPairs opts) :
    p.2 ∈ opts ∧ p.1 ∈ p.2.names := by
  induction opts with
  | nil => cases hp
  | cons o opts ih =>
    rcases List.mem_append.mp hp with h | h
    · rcases List.mem_map.mp h with ⟨n, hn, rfl⟩
      exact ⟨List.mem_cons_self o opts, hn⟩
    · rcases ih h with ⟨ih1, ih2⟩
      exact ⟨List.mem_cons_of_mem o ih1, ih2⟩

/-- C2: `get_option(a)` returns the first stored Opt in scan order whose
alias set holds `a`; looking `a` up in the alias-to-Opt projection yields
the same Opt; and `get_option(x)` returns none exactly for the names `x`
that are an alias of no stored Opt. -/
theorem claim_C2 (d : CommandDefinition) (a : String) :
    d.projectionLookup a = d.get_option a ∧
      (d.get_option a = none ↔ ∀ o ∈ d.optionsField, a ∉ o.names) ∧
      ∀ l1 o l2, d.optionsField = l1 ++ o :: l2 → a ∈ o.names
        → (∀ o2 ∈ l1, a ∉ o2.names) → d.get_option a = some o := by
  refine ⟨optPairs_find a d.optionsField, findOpt_eq_none_iff a d.optionsField, ?_⟩
  intro l1 o l2 hdec ho hl1
  show findOpt a d.optionsField = some o
  rw [hdec]
  exact findOpt_first a l1 l2 o ho hl1

/-- Witness for C2 at the spec scenario: Opts aliased `["h", "help"]` and
`["q", "quiet"]`; `get_option "help"` returns the first Opt, the projection
agrees, and `get_option "x"` returns none. -/
theorem claim_C2_witness :
    defOpts.optionsField = [] ++ optHelp :: [optQuiet] ∧
      "help" ∈ optHelp.names ∧
      defOpts.get_option "help" = some optHelp ∧
      defOpts.projectionLookup "help" = defOpts.get_option "help" ∧
      defOpts.get_option "x" = none :=
  ⟨rfl, by decide,
    (claim_C2 defOpts "help").2.2 [] optHelp [optQuiet] rfl (by decide) (by simp),
    (claim_C2 defOpts "help").1,
    (claim_C2 defOpts "x").2.1.mpr (by decide)⟩

/-- C7: `options()` yields one pair per alias across all stored Opts (its
length is the sum of the alias-set sizes), every alias of a stored Opt is
paired with that same Opt, and every pair comes from a stored Opt and one
of its aliases. -/
theorem claim_C7 (d : CommandDefinition) :
    d.optionsList.length = (d.optionsField.map fun o => o.names.length).sum ∧
      (∀ o ∈ d.optionsField, ∀ n ∈ o.names, (n, o) ∈ d.optionsList) ∧
      ∀ p ∈ d.optionsList, p.2 ∈ d.optionsField ∧ p.1 ∈ p.2.names :=
  ⟨optPairs_length d.optionsField,
    fun o ho n hn => mem_optPairs_of d.optionsField o ho n hn,
    fun p hp => of_mem_optPairs d.optionsField p hp⟩

/-- Witness for C7: the fixture with Opts of two aliases each yields four
pairs, and the alias `"help"` yields a pair carrying its owning Opt. -/
theorem claim_C7_witness :
    defOpts.optionsList.length = 4 ∧
      optHelp ∈ defOpts.optionsField ∧ "help" ∈ optHelp.names ∧
      ("help", optHelp) ∈ defOpts.optionsList :=
  ⟨((claim_C7 defOpts).1).trans (by decide), by decide, by decide,
    (claim_C7 defOpts).2.1 optHelp (by decide) "help" (by decide)⟩

/-- C5: dispatch invokes the stored callback with the given Request and
propagates its result verbatim — in particular the exact error string of a
failing callback is returned with no wrapping or modification. -/
theorem claim_C5 (d : CommandDefinition) (req : Request) (s : String) :
    d.run req = d.runFn req ∧
      (d.run req = Except.error s ↔ d.runFn req = Except.error s) :=
  ⟨rfl, Iff.rfl⟩

/-- Witness for C5: a callback failing with `"disk full"` makes `run`
return exactly `Except.error "disk full"`. -/
theorem claim_C5_witness :
    defDisk.runFn reqEx = Except.error "disk full" ∧
      defDisk.run reqEx = Except.error "disk full" :=
  ⟨rfl, (claim_C5 defDisk reqEx "disk full").2.mpr rfl⟩

/-- C9: Argument construction is plain value construction with no
validation — it succeeds for every combination of name, kind, required and
variadic flags, and the accessors return exactly the supplied values. -/
theorem claim_C9 (name : String) (ty : ArgumentType) (required variadic : Bool)
    (desc : String) :
    (Argument.new name ty required variadic desc).is_variadic = variadic ∧
      (Argument.new name ty required variadic desc).name = name ∧
      (Argument.new name ty required variadic desc).arg_type = ty ∧
      (Argument.new name ty required variadic desc).required = required ∧
      (Argument.new name ty required variadic desc).description = desc :=
  ⟨rfl, rfl, rfl, rfl, rfl⟩

end FortySitups
